import Mathlib

/-!
The ydaemon partner-tracker relation tree, transfer index and block-time store.

A shallow embedding of

* `internal/indexer.partnerTracker/helpers.go`
  (`RetrieveAllPartnerTrackerEvents`, `retrieveAllTransfersForReferee`,
  `FilterReferralBalanceIncreaseEventsForVault`), and
* `common/store/store.setter.go` (`StoreBlockTime`),

followed by the properties proved about them.

Conventions.

* `uint64` values are natural numbers; where the bound `2^64 - 1` matters
  (`math.MaxUint64`) it is written out.
* A Go map is an association list (`GoMap`) read with `mapGet` (first match) and
  written with `mapSet` (replace in place, or add a new entry).  A `nil` map or
  slice read from a missing key is `none`.
* `range` over a map visits the entries in an order Go leaves unspecified: the
  order is a parameter (`MapRange`).
* `sort.Slice` is not stable: the sort is a parameter (`SliceSorter`) that is only
  known to return a sorted permutation.
-/

set_option linter.unusedSectionVars false

namespace YDaemon

/-! ## Go maps -/

/-- An account address (`ethcommon.Address`), as a number. -/
abbrev Address := Nat

/-- A Go map, as an association list. -/
abbrev GoMap (K V : Type) := List (K × V)

/-- Read `m[k]`: `none` when the key is missing. -/
def mapGet {K V : Type} [DecidableEq K] : GoMap K V → K → Option V
  | [], _ => none
  | (k', v) :: rest, k => if k' = k then some v else mapGet rest k

/-- Write `m[k] = v`: an existing entry is replaced, a new one is added. -/
def mapSet {K V : Type} [DecidableEq K] : GoMap K V → K → V → GoMap K V
  | [], k, v => [(k, v)]
  | (k', v') :: rest, k, v =>
    if k' = k then (k, v) :: rest else (k', v') :: mapSet rest k v

/-- Read `m[a][b]`; reading through a missing inner map gives `none`. -/
def get2 {A B V : Type} [DecidableEq A] [DecidableEq B]
    (m : GoMap A (GoMap B V)) (a : A) (b : B) : Option V :=
  (mapGet m a).bind (fun inner => mapGet inner b)

/-- Write `m[a][b] = v` (the inner map is shared by reference in Go). -/
def set2 {A B V : Type} [DecidableEq A] [DecidableEq B]
    (m : GoMap A (GoMap B V)) (a : A) (b : B) (v : V) : GoMap A (GoMap B V) :=
  mapSet m a (mapSet ((mapGet m a).getD []) b v)

/-- Read `m[a][b][c]`. -/
def get3 {A B C V : Type} [DecidableEq A] [DecidableEq B] [DecidableEq C]
    (m : GoMap A (GoMap B (GoMap C V))) (a : A) (b : B) (c : C) : Option V :=
  (get2 m a b).bind (fun inner => mapGet inner c)

/-- Write `m[a][b][c] = v`. -/
def set3 {A B C V : Type} [DecidableEq A] [DecidableEq B] [DecidableEq C]
    (m : GoMap A (GoMap B (GoMap C V))) (a : A) (b : B) (c : C) (v : V) :
    GoMap A (GoMap B (GoMap C V)) :=
  set2 m a b (mapSet ((get2 m a b).getD []) c v)

/-- The order in which `range` visits the entries of a map: some rearrangement of
the entries, otherwise unspecified. -/
structure MapRange where
  order : {α : Type} → List α → List α
  perm : ∀ {α : Type} (l : List α), (order l).Perm l

/-- The contract of `sort.Slice(x, less)`: the slice is rearranged in place so that
no later element is `less` than an earlier one.  Ties may end in any order. -/
structure SliceSorter where
  sort : {α : Type} → (α → α → Bool) → List α → List α
  perm : ∀ {α : Type} (less : α → α → Bool) (l : List α), (sort less l).Perm l
  sorted : ∀ {α : Type} (less : α → α → Bool) (l : List α),
    (∀ a b, less a b = true → less b a = false) →
    (∀ a b c, less a b = false → less b c = false → less a c = false) →
    (sort less l).Pairwise (fun a b => less b a = false)

/-- The entries visited in the order they are stored. -/
def storedOrder : MapRange where
  order := fun l => l
  perm := fun l => List.Perm.refl l

/-- Insertion sort, one sorter that meets the contract of `sort.Slice`. -/
def insertionSorter : SliceSorter where
  sort := fun less l => l.insertionSort (fun a b => less b a = false)
  perm := fun less l => List.perm_insertionSort (fun a b => less b a = false) l
  sorted := fun less l hasym htrans => by
    have _i1 : IsTotal _ (fun a b => less b a = false) :=
      ⟨fun a b => by
        cases h : less b a
        · exact Or.inl rfl
        · exact Or.inr (hasym b a h)⟩
    have _i2 : IsTrans _ (fun a b => less b a = false) :=
      ⟨fun a b c hab hbc => htrans c b a hbc hab⟩
    exact List.sorted_insertionSort (fun a b => less b a = false) l

/-! ## Partner tracker: data model -/

/-- Modelled from the spec: the declaration of the address type of the event
fields (`event.Vault`, `event.PartnerID`, `event.Depositer`) is not among the
sources; all the code does with such a field is call `ToAddress()` on it. -/
structure TAddress where
  raw : Address
  deriving DecidableEq, Repr

/-- The plain address of an event field, as `ToAddress()` returns it. -/
def TAddress.ToAddress (a : TAddress) : Address := a.raw

/-- Modelled from the spec: the declaration of the balance-increase event record
is not among the sources; the fields are those the code reads, and the amount
the data model names. -/
structure TEventReferredBalanceIncreased where
  Vault : TAddress
  PartnerID : TAddress
  Depositer : TAddress
  BlockNumber : Nat
  Amount : Nat
  deriving DecidableEq, Repr

structure TRefereeVaultBlockData where
  Referee : Address
  Block : Nat
  deriving DecidableEq, Repr

structure TRefereeTransferEvent where
  TxHash : Nat
  BlockNumber : Nat
  TxIndex : Nat
  LogIndex : Nat
  Value : Int
  Referee : Address
  From : Address
  To : Address
  Token : Address
  deriving DecidableEq, Repr

/-- The relation tree `vault → partner → depositor → events`. -/
abbrev RelationTree :=
  GoMap Address (GoMap Address (GoMap Address (List TEventReferredBalanceIncreased)))

/-- The per-vault observation lists. -/
abbrev ObservationData := GoMap Address (List TRefereeVaultBlockData)

/-! ## `RetrieveAllPartnerTrackerEvents`: the builder loop -/

/-- One iteration of the loop over `allEvents`: the four `nil` checks, then the two
appends. -/
def builderStep (acc : RelationTree × ObservationData)
    (event : TEventReferredBalanceIncreased) : RelationTree × ObservationData :=
  let vault := event.Vault.ToAddress
  let partner := event.PartnerID.ToAddress
  let depositor := event.Depositer.ToAddress
  let partnerTrackerTree := acc.1
  let refereeVaultBlockData := acc.2
  let partnerTrackerTree :=
    if (mapGet partnerTrackerTree vault).isNone then mapSet partnerTrackerTree vault []
    else partnerTrackerTree
  let partnerTrackerTree :=
    if (get2 partnerTrackerTree vault partner).isNone then
      set2 partnerTrackerTree vault partner []
    else partnerTrackerTree
  let partnerTrackerTree :=
    if (get3 partnerTrackerTree vault partner depositor).isNone then
      set3 partnerTrackerTree vault partner depositor []
    else partnerTrackerTree
  let refereeVaultBlockData :=
    if (mapGet refereeVaultBlockData vault).isNone then mapSet refereeVaultBlockData vault []
    else refereeVaultBlockData
  let partnerTrackerTree :=
    set3 partnerTrackerTree vault partner depositor
      ((get3 partnerTrackerTree vault partner depositor).getD [] ++ [event])
  let refereeVaultBlockData :=
    mapSet refereeVaultBlockData vault
      ((mapGet refereeVaultBlockData vault).getD [] ++
        [{ Referee := depositor, Block := event.BlockNumber }])
  (partnerTrackerTree, refereeVaultBlockData)

/-- The builder loop of `RetrieveAllPartnerTrackerEvents`, started on two empty
maps. -/
def builderLoop (allEvents : List TEventReferredBalanceIncreased) :
    RelationTree × ObservationData :=
  allEvents.foldl builderStep ([], [])

/-- Whether an event belongs to the triple `(vault, partner, depositor)`. -/
def eventAt (vault partner depositor : Address)
    (event : TEventReferredBalanceIncreased) : Bool :=
  decide (event.Vault.ToAddress = vault ∧ event.PartnerID.ToAddress = partner ∧
    event.Depositer.ToAddress = depositor)

/-! ## `FilterReferralBalanceIncreaseEventsForVault` -/

/-- The comparison handed to `sort.Slice` for events. -/
def eventLess (a b : TEventReferredBalanceIncreased) : Bool :=
  decide (a.BlockNumber < b.BlockNumber)

/-- The body of the innermost loop: an event below the limit is appended to
`events[partner][depositor]`, the keys being read from the event itself. -/
def filterStep (upperBlockLimit : Nat)
    (events : GoMap Address (GoMap Address (List TEventReferredBalanceIncreased)))
    (event : TEventReferredBalanceIncreased) :
    GoMap Address (GoMap Address (List TEventReferredBalanceIncreased)) :=
  if event.BlockNumber < upperBlockLimit then
    let partner := event.PartnerID.ToAddress
    let depositor := event.Depositer.ToAddress
    let events := if (mapGet events partner).isNone then mapSet events partner [] else events
    let events :=
      if (get2 events partner depositor).isNone then set2 events partner depositor []
      else events
    set2 events partner depositor ((get2 events partner depositor).getD [] ++ [event])
  else events

/-- The three nested loops that collect the events below the limit. -/
def filterCollect (ρ : MapRange) (allEvents : RelationTree) (vaultAddress : Address)
    (upperBlockLimit : Nat) :
    GoMap Address (GoMap Address (List TEventReferredBalanceIncreased)) :=
  (ρ.order ((mapGet allEvents vaultAddress).getD [])).foldl
    (fun events eventsPartnerLevel =>
      (ρ.order eventsPartnerLevel.2).foldl
        (fun events eventDepositorLevel =>
          eventDepositorLevel.2.foldl (filterStep upperBlockLimit) events)
        events)
    []

/-- The closing loops: every leaf is sorted in place (the loop variable shares its
backing array with the slice held by the map), so the order of the visit does not
show in the result. -/
def sortLeaves (σ : SliceSorter)
    (events : GoMap Address (GoMap Address (List TEventReferredBalanceIncreased))) :
    GoMap Address (GoMap Address (List TEventReferredBalanceIncreased)) :=
  events.map (fun eventsPartnerLevel =>
    (eventsPartnerLevel.1,
      eventsPartnerLevel.2.map (fun eventDepositorLevel =>
        (eventDepositorLevel.1, σ.sort eventLess eventDepositorLevel.2))))

def FilterReferralBalanceIncreaseEventsForVault (σ : SliceSorter) (ρ : MapRange)
    (allEvents : RelationTree) (vaultAddress : Address) (upperBlockLimit : Nat) :
    GoMap Address (GoMap Address (List TEventReferredBalanceIncreased)) :=
  sortLeaves σ (filterCollect ρ allEvents vaultAddress upperBlockLimit)

/-! ## `retrieveAllTransfersForReferee` -/

/-- The block range of a log query (`bind.FilterOpts`); `End = none` is the `nil`
end, an open range. -/
structure FilterOpts where
  Start : Nat
  End : Option Nat
  deriving DecidableEq, Repr

/-- The constant `math.MaxUint64`. -/
def MaxUint64 : Nat := 2 ^ 64 - 1

/-- One iteration of the loop over the observation points of a vault. -/
def refereeStep (acc : List Address × Nat) (refereeBlock : TRefereeVaultBlockData) :
    List Address × Nat :=
  let allRefereesAddresses := acc.1 ++ [refereeBlock.Referee]
  let earliestBlock := if refereeBlock.Block < acc.2 then refereeBlock.Block else acc.2
  (allRefereesAddresses, earliestBlock)

/-- What the body of the loop over the vaults computes before the two queries are
launched: the address list handed to both queries, and the block range. -/
def refereeQuery (refereeBlockData : List TRefereeVaultBlockData) :
    List Address × FilterOpts :=
  let r := refereeBlockData.foldl refereeStep ([], MaxUint64)
  (r.1, { Start := r.2, End := none })

/-- The part of a log that is the same for every event (`types.Log`). -/
structure RawLog where
  Address : Address
  TxHash : Nat
  BlockNumber : Nat
  TxIndex : Nat
  Index : Nat
  deriving DecidableEq, Repr

/-- A decoded ERC20 `Transfer` log. -/
structure ERC20Transfer where
  From : Address
  To : Address
  Value : Int
  Raw : RawLog
  deriving DecidableEq, Repr

/-- The record appended for a log of the query on the senders. -/
def outboundEvent (log : ERC20Transfer) : TRefereeTransferEvent :=
  { TxHash := log.Raw.TxHash
    BlockNumber := log.Raw.BlockNumber
    TxIndex := log.Raw.TxIndex
    LogIndex := log.Raw.Index
    Value := log.Value
    Referee := log.From
    From := log.From
    To := log.To
    Token := log.Raw.Address }

/-- The record appended for a log of the query on the receivers. -/
def inboundEvent (log : ERC20Transfer) : TRefereeTransferEvent :=
  { TxHash := log.Raw.TxHash
    BlockNumber := log.Raw.BlockNumber
    TxIndex := log.Raw.TxIndex
    LogIndex := log.Raw.Index
    Value := log.Value
    Referee := log.To
    From := log.From
    To := log.To
    Token := log.Raw.Address }

/-- The comparison handed to `sort.Slice` for transfers. -/
def transferLess (a b : TRefereeTransferEvent) : Bool :=
  decide (a.BlockNumber < b.BlockNumber)

/-- One iteration of the bucketing loop over the sorted transfers. -/
def bucketStep (allTransfers : GoMap Address (GoMap Address (List TRefereeTransferEvent)))
    (transfer : TRefereeTransferEvent) :
    GoMap Address (GoMap Address (List TRefereeTransferEvent)) :=
  let allTransfers :=
    if (mapGet allTransfers transfer.Token).isNone then mapSet allTransfers transfer.Token []
    else allTransfers
  let allTransfers :=
    if (get2 allTransfers transfer.Token transfer.Referee).isNone then
      set2 allTransfers transfer.Token transfer.Referee []
    else allTransfers
  set2 allTransfers transfer.Token transfer.Referee
    ((get2 allTransfers transfer.Token transfer.Referee).getD [] ++ [transfer])

/-- The tail of `retrieveAllTransfersForReferee`, after `wg.Wait()`: the merged
collection is sorted by block number and bucketed by token and referee. -/
def sortAndBucket (σ : SliceSorter) (transfersEvents : List TRefereeTransferEvent) :
    GoMap Address (GoMap Address (List TRefereeTransferEvent)) :=
  (σ.sort transferLess transfersEvents).foldl bucketStep []

/-- Whether a transfer belongs to the bucket `(token, referee)`. -/
def transferAt (token referee : Address) (transfer : TRefereeTransferEvent) : Bool :=
  decide (transfer.Token = token ∧ transfer.Referee = referee)

/-! ## `StoreBlockTime` -/

/-- The configured backend (`_dbType`). -/
inductive DBType where
  | DBBadger
  | DBMysql
  deriving DecidableEq, Repr

/-- Modelled from the spec: the declaration of `DBBaseSchema` is not among the
sources; its three fields are those `StoreBlockTime` fills, `UUID` being the
record ID the relational engine upserts by. -/
structure DBBaseSchema where
  UUID : String
  Block : Nat
  ChainID : Nat
  deriving DecidableEq, Repr

/-- Modelled from the spec: the declaration of `DBBlockTime` is not among the
sources; it is built from the base schema and the block time. -/
structure DBBlockTime where
  base : DBBaseSchema
  Time : Nat
  deriving DecidableEq, Repr

/-- The state `StoreBlockTime` touches: the in-memory maps (`_blockTimeSyncMap`,
chain → block number → block time), the key-value database of the block times of
each chain, and the rows of the table `db_block_times`. -/
structure StoreState where
  blockTimeSyncMap : GoMap Nat (GoMap Nat Nat)
  badgerBlockTime : GoMap Nat (GoMap String String)
  dbBlockTimes : List DBBlockTime
  deriving DecidableEq, Repr

/-- A backend write that has been dispatched with `go` and not run yet. -/
inductive BackendWrite where
  | badgerSet (chainID : Nat) (key value : String)
  | tableSave (record : DBBlockTime)
  deriving DecidableEq, Repr

/-- Modelled from the spec: the relational engine is not among the sources; `Save`
is an upsert by record: a row with the same record ID is replaced, otherwise the
record is added as a new row. -/
def tableSave : List DBBlockTime → DBBlockTime → List DBBlockTime
  | [], record => [record]
  | row :: rows, record =>
    if row.base.UUID = record.base.UUID then record :: rows
    else row :: tableSave rows record

/-- The decimal form `strconv.FormatUint(n, 10)`, which is also what `json.Marshal`
gives for a `uint64`. -/
def formatUint (n : Nat) : String := Nat.repr n

/-- The function `StoreBlockTime`: the in-memory write is done when it returns, the
backend write is handed back as dispatched.  The ID function `getUUID` is not
among the sources and is a parameter. -/
def StoreBlockTime (dbType : DBType) (getUUID : String → String)
    (chainID blockNumber blockTime : Nat) (s : StoreState) : StoreState × BackendWrite :=
  let created := (mapGet s.blockTimeSyncMap chainID).isNone
  let syncMap := if created then [] else (mapGet s.blockTimeSyncMap chainID).getD []
  let blockTimeSyncMap :=
    if created then mapSet s.blockTimeSyncMap chainID syncMap else s.blockTimeSyncMap
  let blockTimeSyncMap := mapSet blockTimeSyncMap chainID (mapSet syncMap blockNumber blockTime)
  let s := { s with blockTimeSyncMap := blockTimeSyncMap }
  match dbType with
  | .DBBadger => (s, .badgerSet chainID (formatUint blockNumber) (formatUint blockTime))
  | .DBMysql =>
    let DBbaseSchema : DBBaseSchema :=
      { UUID := getUUID (formatUint chainID ++ formatUint blockNumber ++ formatUint blockTime)
        Block := blockNumber
        ChainID := chainID }
    (s, .tableSave { base := DBbaseSchema, Time := blockTime })

/-- Running a dispatched backend write; `ok = false` is a write that fails and
leaves the backend as it was. -/
def runWrite (w : BackendWrite) (ok : Bool) (s : StoreState) : StoreState :=
  if ok then
    match w with
    | .badgerSet chainID key value =>
      { s with badgerBlockTime := set2 s.badgerBlockTime chainID key value }
    | .tableSave record => { s with dbBlockTimes := tableSave s.dbBlockTimes record }
  else s

/-- Two calls of `StoreBlockTime` for the same chain and block, then the two
backend writes in call order, both succeeding. -/
def storeTwice (dbType : DBType) (getUUID : String → String)
    (chainID blockNumber t1 t2 : Nat) (s : StoreState) : StoreState :=
  let r1 := StoreBlockTime dbType getUUID chainID blockNumber t1 s
  let r2 := StoreBlockTime dbType getUUID chainID blockNumber t2 r1.1
  runWrite r2.2 true (runWrite r1.2 true r2.1)

/-- The rows of the table that are block-time records of `(chainID, blockNumber)`. -/
def recordsOf (s : StoreState) (chainID blockNumber : Nat) : List DBBlockTime :=
  s.dbBlockTimes.filter (fun r => decide (r.base.ChainID = chainID ∧ r.base.Block = blockNumber))

/-- The row of the table with a given record ID, if any. -/
def tableFind : List DBBlockTime → String → Option DBBlockTime
  | [], _ => none
  | row :: rows, uuid => if row.base.UUID = uuid then some row else tableFind rows uuid

/-- The record `StoreBlockTime` saves in the relational backend. -/
def blockTimeRecord (getUUID : String → String) (chainID blockNumber blockTime : Nat) :
    DBBlockTime :=
  { base :=
      { UUID := getUUID (formatUint chainID ++ formatUint blockNumber ++ formatUint blockTime)
        Block := blockNumber
        ChainID := chainID }
    Time := blockTime }

/-- The state after one call of `StoreBlockTime` and its backend write. -/
def storeOnce (dbType : DBType) (getUUID : String → String)
    (chainID blockNumber blockTime : Nat) (s : StoreState) : StoreState :=
  let r := StoreBlockTime dbType getUUID chainID blockNumber blockTime s
  runWrite r.2 true r.1

/-- The observation point the builder records for an event. -/
def observationOf (event : TEventReferredBalanceIncreased) : TRefereeVaultBlockData :=
  { Referee := event.Depositer.ToAddress, Block := event.BlockNumber }

/-- The empty store. -/
def emptyStore : StoreState :=
  { blockTimeSyncMap := [], badgerBlockTime := [], dbBlockTimes := [] }

/-- An ID function that keeps its argument: one choice of `getUUID` without
collisions, used where a concrete ID function is needed. -/
def plainUUID (str : String) : String := str

/-! ## Helper definitions for the proofs -/

/-- The get-or-create append used by the two-level loops: make sure `m[a]` and
`m[a][b]` exist, then append `x` to `m[a][b]`. -/
def push2 {A B E : Type} [DecidableEq A] [DecidableEq B]
    (m : GoMap A (GoMap B (List E))) (a : A) (b : B) (x : E) : GoMap A (GoMap B (List E)) :=
  let m := if (mapGet m a).isNone then mapSet m a [] else m
  let m := if (get2 m a b).isNone then set2 m a b [] else m
  set2 m a b ((get2 m a b).getD [] ++ [x])

/-- What a leaf becomes when the items `l` are appended to it: untouched when
there is nothing to append. -/
def appendTo {E : Type} (leaf : Option (List E)) : List E → Option (List E)
  | [] => leaf
  | x :: l => some (leaf.getD [] ++ x :: l)

/-- A property of every leaf list stored in a two-level map. -/
def LeavesOf {A B E : Type} (m : GoMap A (GoMap B (List E))) (Q : List E → Prop) : Prop :=
  ∀ outer ∈ m, ∀ inner ∈ outer.2, Q inner.2

/-- The keys of a map are pairwise different. -/
def NodupKeys {K V : Type} (m : GoMap K V) : Prop := (m.map Prod.fst).Nodup

/-- A well-formed map: the keys are pairwise different and every stored value
satisfies `P`. -/
def WFMap {K V : Type} [DecidableEq K] (P : V → Prop) (m : GoMap K V) : Prop :=
  NodupKeys m ∧ ∀ k v, mapGet m k = some v → P v

/-- All the events a partner-level map holds, in the order `range` visits them. -/
def flatten2 (ρ : MapRange)
    (m : GoMap Address (GoMap Address (List TEventReferredBalanceIncreased))) :
    List TEventReferredBalanceIncreased :=
  (ρ.order m).flatMap (fun outer => (ρ.order outer.2).flatMap (fun inner => inner.2))

/-! ## Sample data -/

def sampleEvent (block : Nat) : TEventReferredBalanceIncreased :=
  { Vault := ⟨1⟩, PartnerID := ⟨2⟩, Depositer := ⟨3⟩, BlockNumber := block, Amount := 7 }

def sampleOutbound : ERC20Transfer :=
  { From := 3, To := 8, Value := 5,
    Raw := { Address := 1, TxHash := 11, BlockNumber := 120, TxIndex := 0, Index := 0 } }

def sampleInbound : ERC20Transfer :=
  { From := 9, To := 3, Value := 6,
    Raw := { Address := 1, TxHash := 12, BlockNumber := 130, TxIndex := 0, Index := 0 } }

/-! ## Lemmas on maps -/

section MapLemmas

variable {K V A B C E : Type} [DecidableEq K] [DecidableEq A] [DecidableEq B] [DecidableEq C]

theorem mapGet_mapSet (m : GoMap K V) (k k' : K) (v : V) :
    mapGet (mapSet m k v) k' = if k' = k then some v else mapGet m k' := by
  induction m with
  | nil =>
    by_cases h : k = k'
    · subst h; simp [mapSet, mapGet]
    · have h' : ¬ k' = k := fun e => h e.symm
      simp [mapSet, mapGet, h, h']
  | cons kv rest ih =>
    obtain ⟨k0, v0⟩ := kv
    by_cases h0 : k0 = k
    · subst h0
      by_cases h1 : k0 = k'
      · subst h1; simp [mapSet, mapGet]
      · have h1' : ¬ k' = k0 := fun e => h1 e.symm
        simp [mapSet, mapGet, h1, h1']
    · by_cases h1 : k0 = k'
      · subst h1
        have h0' : ¬ k0 = k := h0
        simp [mapSet, mapGet, h0']
      · simp [mapSet, mapGet, h0, h1, ih]

theorem get2_set2 (m : GoMap A (GoMap B V)) (a a' : A) (b b' : B) (v : V) :
    get2 (set2 m a b v) a' b' = if a' = a ∧ b' = b then some v else get2 m a' b' := by
  unfold get2 set2
  rw [mapGet_mapSet]
  by_cases ha : a' = a
  · subst ha
    simp only [if_true, Option.some_bind, mapGet_mapSet, true_and]
    by_cases hb : b' = b
    · simp [hb]
    · simp only [hb, if_false]
      cases mapGet m a' <;> simp [mapGet]
  · simp [ha]

theorem get3_set3 (m : GoMap A (GoMap B (GoMap C V))) (a a' : A) (b b' : B) (c c' : C) (v : V) :
    get3 (set3 m a b c v) a' b' c' =
      if a' = a ∧ b' = b ∧ c' = c then some v else get3 m a' b' c' := by
  unfold get3 set3
  rw [get2_set2]
  by_cases hab : a' = a ∧ b' = b
  · obtain ⟨ha, hb⟩ := hab
    subst ha; subst hb
    simp only [and_self, if_true, Option.some_bind, mapGet_mapSet, true_and]
    by_cases hc : c' = c
    · simp [hc]
    · simp only [hc, if_false]
      cases get2 m a' b' <;> simp [mapGet]
  · have : ¬ (a' = a ∧ b' = b ∧ c' = c) := fun h => hab ⟨h.1, h.2.1⟩
    simp [hab, this]

theorem get2_ensure (m : GoMap A (GoMap B V)) (a a' : A) (b' : B) :
    get2 (if (mapGet m a).isNone then mapSet m a [] else m) a' b' = get2 m a' b' := by
  cases hn : mapGet m a with
  | none =>
    simp only [Option.isNone_none, if_true]
    unfold get2
    rw [mapGet_mapSet]
    by_cases ha : a' = a
    · subst ha; simp [hn, mapGet]
    · simp [ha]
  | some inner => simp

theorem get2_push2 (m : GoMap A (GoMap B (List E))) (a a' : A) (b b' : B) (x : E) :
    get2 (push2 m a b x) a' b' =
      if a' = a ∧ b' = b then some ((get2 m a b).getD [] ++ [x]) else get2 m a' b' := by
  unfold push2
  simp only [get2_set2, get2_ensure]
  cases hg : get2 m a b with
  | none =>
    simp only [Option.isNone_none, if_true, get2_set2, and_self, Option.getD_some,
      Option.getD_none, get2_ensure]
    by_cases hab : a' = a ∧ b' = b
    · simp [hab]
    · simp [hab]
  | some l =>
    simp only [Option.isNone_some, Bool.false_eq_true, if_false, get2_ensure, hg]

theorem get3_ensure (m : GoMap A (GoMap B (GoMap C V))) (a a' : A) (b b' : B) (c' : C) :
    get3 (if (get2 m a b).isNone then set2 m a b [] else m) a' b' c' = get3 m a' b' c' := by
  cases hn : get2 m a b with
  | none =>
    simp only [Option.isNone_none, if_true]
    unfold get3
    rw [get2_set2]
    by_cases hab : a' = a ∧ b' = b
    · obtain ⟨ha, hb⟩ := hab
      subst ha; subst hb
      simp [hn, mapGet]
    · simp [hab]
  | some inner => simp

theorem get3_create (m : GoMap A (GoMap B (GoMap C (List E)))) (a a' : A) (b b' : B)
    (c c' : C) :
    (get3 (if (get3 m a b c).isNone then set3 m a b c [] else m) a' b' c').getD [] =
        (get3 m a' b' c').getD [] ∧
      (¬ (a' = a ∧ b' = b ∧ c' = c) →
        get3 (if (get3 m a b c).isNone then set3 m a b c [] else m) a' b' c' =
          get3 m a' b' c') := by
  cases hn : get3 m a b c with
  | none =>
    simp only [Option.isNone_none, if_true, get3_set3]
    by_cases h : a' = a ∧ b' = b ∧ c' = c
    · obtain ⟨ha, hb, hc⟩ := h
      subst ha; subst hb; subst hc
      simp [hn]
    · simp [h]
  | some leaf => simp

/-- A fold whose steps append to one observed leaf the items that pass a test
collects in that leaf the passing items, in order. -/
theorem fold_leaf {S : Type} (step : S → E → S) (g : S → Option (List E)) (c : E → Bool)
    (hstep : ∀ s x, g (step s x) = if c x = true then some ((g s).getD [] ++ [x]) else g s)
    (l : List E) (s : S) :
    g (l.foldl step s) = appendTo (g s) (l.filter c) := by
  induction l generalizing s with
  | nil => simp [appendTo]
  | cons x l ih =>
    rw [List.foldl_cons, ih, hstep]
    by_cases hc : c x = true
    · simp only [hc, if_true, List.filter_cons_of_pos]
      cases l.filter c with
      | nil => simp [appendTo]
      | cons y t => simp [appendTo]
    · rw [List.filter_cons_of_neg hc, if_neg hc]

theorem appendTo_none_getD (l : List E) : (appendTo none l).getD [] = l := by
  cases l <;> simp [appendTo]

theorem foldl_flatMap_eq {X S : Type} (f : X → List E) (g : S → E → S) (l : List X) (s : S) :
    (l.flatMap f).foldl g s = l.foldl (fun acc x => (f x).foldl g acc) s := by
  induction l generalizing s with
  | nil => simp
  | cons x l ih => simp [List.flatMap_cons, List.foldl_append, ih]

theorem keys_mapSet (m : GoMap K V) (k : K) (v : V) :
    (mapSet m k v).map Prod.fst =
      if k ∈ m.map Prod.fst then m.map Prod.fst else m.map Prod.fst ++ [k] := by
  induction m with
  | nil => simp [mapSet]
  | cons kv rest ih =>
    obtain ⟨k0, v0⟩ := kv
    by_cases h0 : k0 = k
    · subst h0; simp [mapSet]
    · have h0' : ¬ k = k0 := fun e => h0 e.symm
      simp only [mapSet, if_neg h0, List.map_cons, ih, List.mem_cons, h0', false_or]
      split_ifs <;> simp

theorem nodupKeys_mapSet (m : GoMap K V) (k : K) (v : V) (h : NodupKeys m) :
    NodupKeys (mapSet m k v) := by
  unfold NodupKeys at *
  rw [keys_mapSet]
  split_ifs with hk
  · exact h
  · rw [List.nodup_append]
    refine ⟨h, List.nodup_singleton k, ?_⟩
    intro a ha hb
    rw [List.mem_singleton] at hb
    subst hb
    exact hk ha

theorem mem_of_mapGet (m : GoMap K V) (k : K) (v : V) (h : mapGet m k = some v) :
    (k, v) ∈ m := by
  induction m with
  | nil => simp [mapGet] at h
  | cons kv rest ih =>
    obtain ⟨k0, v0⟩ := kv
    by_cases h0 : k0 = k
    · subst h0
      simp only [mapGet, if_true, Option.some.injEq] at h
      subst h
      exact List.mem_cons_self _ _
    · simp only [mapGet, if_neg h0] at h
      exact List.mem_cons_of_mem _ (ih h)

theorem mapGet_of_mem (m : GoMap K V) (k : K) (v : V) (hnd : NodupKeys m) (h : (k, v) ∈ m) :
    mapGet m k = some v := by
  induction m with
  | nil => simp at h
  | cons kv rest ih =>
    obtain ⟨k0, v0⟩ := kv
    unfold NodupKeys at hnd
    rw [List.map_cons, List.nodup_cons] at hnd
    rcases List.mem_cons.mp h with heq | hmem
    · simp only [Prod.mk.injEq] at heq
      obtain ⟨hk, hv⟩ := heq
      subst hk; subst hv
      simp [mapGet]
    · have hne : ¬ k0 = k := by
        intro e
        subst e
        exact hnd.1 (List.mem_map.mpr ⟨(k0, v), hmem, rfl⟩)
      simp only [mapGet, if_neg hne]
      exact ih hnd.2 hmem

theorem mapGet_perm (m m' : GoMap K V) (k : K) (hp : m.Perm m') (hnd : NodupKeys m) :
    mapGet m k = mapGet m' k := by
  have hnd' : NodupKeys m' := by
    unfold NodupKeys at *
    exact (hp.map Prod.fst).nodup_iff.mp hnd
  apply Option.ext
  intro v
  simp only [Option.mem_def]
  constructor
  · intro h
    exact mapGet_of_mem m' k v hnd' (hp.subset (mem_of_mapGet m k v h))
  · intro h
    exact mapGet_of_mem m k v hnd (hp.symm.subset (mem_of_mapGet m' k v h))

theorem wfMap_nil (P : V → Prop) : WFMap P ([] : GoMap K V) := by
  refine ⟨by simp [NodupKeys], ?_⟩
  intro k v h
  simp [mapGet] at h

theorem wfMap_mapSet (P : V → Prop) (m : GoMap K V) (k : K) (v : V)
    (h : WFMap P m) (hv : P v) : WFMap P (mapSet m k v) := by
  refine ⟨nodupKeys_mapSet m k v h.1, ?_⟩
  intro k' v' hg
  rw [mapGet_mapSet] at hg
  by_cases hk : k' = k
  · simp only [hk, if_true, Option.some.injEq] at hg
    subst hg
    exact hv
  · rw [if_neg hk] at hg
    exact h.2 k' v' hg

theorem wfMap_getD (P : V → Prop) (m : GoMap K V) (k : K) (d : V)
    (h : WFMap P m) (hd : P d) : P ((mapGet m k).getD d) := by
  cases hg : mapGet m k with
  | none => simpa using hd
  | some v => simpa using h.2 k v hg

theorem wfMap_set2 (P : V → Prop) (m : GoMap A (GoMap B V)) (a : A) (b : B) (v : V)
    (h : WFMap (WFMap P) m) (hv : P v) : WFMap (WFMap P) (set2 m a b v) := by
  unfold set2
  exact wfMap_mapSet _ m a _ h
    (wfMap_mapSet P _ b v (wfMap_getD _ m a [] h (wfMap_nil P)) hv)

theorem wfMap_get2D (P : V → Prop) (m : GoMap A (GoMap B V)) (a : A) (b : B) (d : V)
    (h : WFMap (WFMap P) m) (hd : P d) : P ((get2 m a b).getD d) := by
  unfold get2
  cases hg : mapGet m a with
  | none => simpa using hd
  | some inner => simpa using wfMap_getD P inner b d (h.2 a inner hg) hd

theorem wfMap_set3 (P : V → Prop) (m : GoMap A (GoMap B (GoMap C V))) (a : A) (b : B)
    (c : C) (v : V) (h : WFMap (WFMap (WFMap P)) m) (hv : P v) :
    WFMap (WFMap (WFMap P)) (set3 m a b c v) := by
  unfold set3
  exact wfMap_set2 _ m a b _ h
    (wfMap_mapSet P _ c v (wfMap_get2D _ m a b [] h (wfMap_nil P)) hv)

/-- In a map with pairwise different keys whose values hold only items carrying the
key of their entry, the items with key `k` are those of the entry of `k`. -/
theorem filter_flatMap_key {X : Type} (m : GoMap K X) (f : X → List E) (key : E → K) (k : K)
    (hnd : NodupKeys m) (hkey : ∀ kv ∈ m, ∀ e ∈ f kv.2, key e = kv.1) :
    (m.flatMap (fun kv => f kv.2)).filter (fun e => decide (key e = k)) =
      ((mapGet m k).map f).getD [] := by
  induction m with
  | nil => simp [mapGet]
  | cons kv rest ih =>
    obtain ⟨k0, x0⟩ := kv
    have hnd0 := hnd
    unfold NodupKeys at hnd0
    rw [List.map_cons, List.nodup_cons] at hnd0
    have ih' := ih hnd0.2 (fun kv hkv => hkey kv (List.mem_cons_of_mem _ hkv))
    have h0 : ∀ e ∈ f x0, key e = k0 := hkey (k0, x0) (List.mem_cons_self _ _)
    rw [List.flatMap_cons, List.filter_append, ih']
    by_cases hk : k0 = k
    · subst hk
      have hnone : mapGet rest k0 = none := by
        cases hg : mapGet rest k0 with
        | none => rfl
        | some v =>
          exact absurd (List.mem_map.mpr ⟨(k0, v), mem_of_mapGet rest k0 v hg, rfl⟩) hnd0.1
      have hall : (f x0).filter (fun e => decide (key e = k0)) = f x0 := by
        rw [List.filter_eq_self]
        intro e he
        simp [h0 e he]
      simp [mapGet, hnone, hall]
    · have hnil : (f x0).filter (fun e => decide (key e = k)) = [] := by
        rw [List.filter_eq_nil_iff]
        intro e he
        simp only [decide_eq_true_eq]
        rw [h0 e he]
        exact hk
      simp [mapGet, hk, hnil]

theorem mem_mapSet (m : GoMap K V) (k : K) (v : V) (kv : K × V) (h : kv ∈ mapSet m k v) :
    kv = (k, v) ∨ kv ∈ m := by
  induction m with
  | nil => simpa [mapSet] using h
  | cons kv0 rest ih =>
    obtain ⟨k0, v0⟩ := kv0
    by_cases h0 : k0 = k
    · simp only [mapSet, if_pos h0, List.mem_cons] at h
      rcases h with h | h
      · exact Or.inl h
      · exact Or.inr (List.mem_cons_of_mem _ h)
    · simp only [mapSet, if_neg h0, List.mem_cons] at h
      rcases h with h | h
      · exact Or.inr (h ▸ List.mem_cons_self _ _)
      · rcases ih h with h | h
        · exact Or.inl h
        · exact Or.inr (List.mem_cons_of_mem _ h)

theorem mem_of_get2 (m : GoMap A (GoMap B V)) (a : A) (b : B) (v : V)
    (h : get2 m a b = some v) : ∃ inner, (a, inner) ∈ m ∧ (b, v) ∈ inner := by
  unfold get2 at h
  cases hg : mapGet m a with
  | none => simp [hg] at h
  | some inner =>
    rw [hg] at h
    exact ⟨inner, mem_of_mapGet m a inner hg, mem_of_mapGet inner b v h⟩

theorem leavesOf_mono (m : GoMap A (GoMap B (List E))) (Q Q' : List E → Prop)
    (hmono : ∀ l, Q l → Q' l) (h : LeavesOf m Q) : LeavesOf m Q' :=
  fun outer ho inner hi => hmono _ (h outer ho inner hi)

theorem leavesOf_set2 (m : GoMap A (GoMap B (List E))) (Q : List E → Prop) (a : A) (b : B)
    (v : List E) (h : LeavesOf m Q) (hv : Q v) : LeavesOf (set2 m a b v) Q := by
  intro outer ho inner hi
  unfold set2 at ho
  rcases mem_mapSet _ _ _ _ ho with ho | ho
  · subst ho
    rcases mem_mapSet _ _ _ _ hi with hi | hi
    · subst hi; exact hv
    · cases hg : mapGet m a with
      | none => simp [hg] at hi
      | some old =>
        rw [hg] at hi
        exact h (a, old) (mem_of_mapGet m a old hg) inner hi
  · exact h outer ho inner hi

theorem leavesOf_get2D (m : GoMap A (GoMap B (List E))) (Q : List E → Prop) (a : A) (b : B)
    (h : LeavesOf m Q) (hnil : Q []) : Q ((get2 m a b).getD []) := by
  cases hg : get2 m a b with
  | none => simpa using hnil
  | some l =>
    obtain ⟨inner, h1, h2⟩ := mem_of_get2 m a b l hg
    simpa using h (a, inner) h1 (b, l) h2

theorem leavesOf_ensure1 (m : GoMap A (GoMap B (List E))) (Q : List E → Prop) (a : A)
    (h : LeavesOf m Q) : LeavesOf (if (mapGet m a).isNone then mapSet m a [] else m) Q := by
  by_cases hc : (mapGet m a).isNone = true
  · rw [if_pos hc]
    intro outer ho inner hi
    rcases mem_mapSet _ _ _ _ ho with ho | ho
    · subst ho; simp at hi
    · exact h outer ho inner hi
  · rw [if_neg hc]; exact h

theorem leavesOf_ensure2 (m : GoMap A (GoMap B (List E))) (Q : List E → Prop) (a : A) (b : B)
    (h : LeavesOf m Q) (hnil : Q []) :
    LeavesOf (if (get2 m a b).isNone then set2 m a b [] else m) Q := by
  by_cases hc : (get2 m a b).isNone = true
  · rw [if_pos hc]; exact leavesOf_set2 m Q a b [] h hnil
  · rw [if_neg hc]; exact h

theorem leavesOf_push2 (m : GoMap A (GoMap B (List E))) (Q Q' : List E → Prop) (a : A) (b : B)
    (x : E) (hnil : Q []) (hmono : ∀ l, Q l → Q' l) (hstep : ∀ l, Q l → Q' (l ++ [x]))
    (h : LeavesOf m Q) : LeavesOf (push2 m a b x) Q' := by
  have h2 := leavesOf_ensure2 _ Q a b (leavesOf_ensure1 m Q a h) hnil
  unfold push2
  exact leavesOf_set2 _ Q' a b _ (leavesOf_mono _ Q Q' hmono h2)
    (hstep _ (leavesOf_get2D _ Q a b h2 hnil))

theorem mapGet_mapValues (f : V → V) (m : GoMap K V) (k : K) :
    mapGet (m.map (fun kv => (kv.1, f kv.2))) k = (mapGet m k).map f := by
  induction m with
  | nil => simp [mapGet]
  | cons kv rest ih =>
    obtain ⟨k0, v0⟩ := kv
    by_cases h0 : k0 = k
    · simp [mapGet, h0]
    · simp [mapGet, h0, ih]

end MapLemmas

/-! ## Lemmas on the builder loop -/

theorem get3_builderStep (acc : RelationTree × ObservationData)
    (event : TEventReferredBalanceIncreased) (vault partner depositor : Address) :
    get3 (builderStep acc event).1 vault partner depositor =
      if eventAt vault partner depositor event = true then
        some ((get3 acc.1 vault partner depositor).getD [] ++ [event])
      else get3 acc.1 vault partner depositor := by
  have hpre : ∀ a b c,
      get3 (if (get2 (if (mapGet acc.1 event.Vault.ToAddress).isNone then
              mapSet acc.1 event.Vault.ToAddress [] else acc.1)
            event.Vault.ToAddress event.PartnerID.ToAddress).isNone then
          set2 (if (mapGet acc.1 event.Vault.ToAddress).isNone then
              mapSet acc.1 event.Vault.ToAddress [] else acc.1)
            event.Vault.ToAddress event.PartnerID.ToAddress []
        else (if (mapGet acc.1 event.Vault.ToAddress).isNone then
              mapSet acc.1 event.Vault.ToAddress [] else acc.1)) a b c = get3 acc.1 a b c := by
    intro a b c
    rw [get3_ensure]
    unfold get3
    rw [get2_ensure]
  unfold builderStep
  simp only [get3_set3]
  by_cases h : eventAt vault partner depositor event = true
  · have h' : vault = event.Vault.ToAddress ∧ partner = event.PartnerID.ToAddress ∧
        depositor = event.Depositer.ToAddress := by
      simp only [eventAt, decide_eq_true_eq] at h
      exact ⟨h.1.symm, h.2.1.symm, h.2.2.symm⟩
    obtain ⟨hv, hp, hd⟩ := h'
    subst hv; subst hp; subst hd
    simp only [and_self, if_true, h]
    rw [(get3_create _ _ _ _ _ _ _).1, hpre]
  · have h' : ¬ (vault = event.Vault.ToAddress ∧ partner = event.PartnerID.ToAddress ∧
        depositor = event.Depositer.ToAddress) := by
      intro hh
      apply h
      simp only [eventAt, decide_eq_true_eq]
      exact ⟨hh.1.symm, hh.2.1.symm, hh.2.2.symm⟩
    rw [if_neg h', if_neg h, (get3_create _ _ _ _ _ _ _).2 h', hpre]

theorem get3_builderLoop (allEvents : List TEventReferredBalanceIncreased)
    (vault partner depositor : Address) :
    get3 (builderLoop allEvents).1 vault partner depositor =
      appendTo none (allEvents.filter (eventAt vault partner depositor)) := by
  unfold builderLoop
  have h := fold_leaf builderStep (fun acc => get3 acc.1 vault partner depositor)
    (eventAt vault partner depositor)
    (fun s x => get3_builderStep s x vault partner depositor) allEvents ([], [])
  simpa [get3, get2, mapGet] using h

/-- The relation tree is well formed: pairwise different keys on each level. -/
theorem wf_builderStep (acc : RelationTree × ObservationData)
    (event : TEventReferredBalanceIncreased)
    (h : WFMap (WFMap (WFMap (fun _ : List TEventReferredBalanceIncreased => True))) acc.1) :
    WFMap (WFMap (WFMap (fun _ : List TEventReferredBalanceIncreased => True)))
      (builderStep acc event).1 := by
  have e1 : ∀ (m : RelationTree) (a : Address),
      WFMap (WFMap (WFMap (fun _ : List TEventReferredBalanceIncreased => True))) m →
      WFMap (WFMap (WFMap (fun _ : List TEventReferredBalanceIncreased => True)))
        (if (mapGet m a).isNone then mapSet m a [] else m) := by
    intro m a hm
    by_cases hc : (mapGet m a).isNone = true
    · rw [if_pos hc]; exact wfMap_mapSet _ m a [] hm (wfMap_nil _)
    · rw [if_neg hc]; exact hm
  have e2 : ∀ (m : RelationTree) (a b : Address),
      WFMap (WFMap (WFMap (fun _ : List TEventReferredBalanceIncreased => True))) m →
      WFMap (WFMap (WFMap (fun _ : List TEventReferredBalanceIncreased => True)))
        (if (get2 m a b).isNone then set2 m a b [] else m) := by
    intro m a b hm
    by_cases hc : (get2 m a b).isNone = true
    · rw [if_pos hc]; exact wfMap_set2 _ m a b [] hm (wfMap_nil _)
    · rw [if_neg hc]; exact hm
  have e3 : ∀ (m : RelationTree) (a b c : Address),
      WFMap (WFMap (WFMap (fun _ : List TEventReferredBalanceIncreased => True))) m →
      WFMap (WFMap (WFMap (fun _ : List TEventReferredBalanceIncreased => True)))
        (if (get3 m a b c).isNone then set3 m a b c [] else m) := by
    intro m a b c hm
    by_cases hc : (get3 m a b c).isNone = true
    · rw [if_pos hc]; exact wfMap_set3 _ m a b c [] hm trivial
    · rw [if_neg hc]; exact hm
  unfold builderStep
  exact wfMap_set3 _ _ _ _ _ _ (e3 _ _ _ _ (e2 _ _ _ (e1 _ _ h))) trivial

theorem wf_builderLoop (allEvents : List TEventReferredBalanceIncreased) :
    WFMap (WFMap (WFMap (fun _ : List TEventReferredBalanceIncreased => True)))
      (builderLoop allEvents).1 := by
  have hgen : ∀ (l : List TEventReferredBalanceIncreased) (acc : RelationTree × ObservationData),
      WFMap (WFMap (WFMap (fun _ : List TEventReferredBalanceIncreased => True))) acc.1 →
      WFMap (WFMap (WFMap (fun _ : List TEventReferredBalanceIncreased => True)))
        (l.foldl builderStep acc).1 := by
    intro l
    induction l with
    | nil => intro acc h; exact h
    | cons x l ih =>
      intro acc h
      rw [List.foldl_cons]
      exact ih _ (wf_builderStep acc x h)
  exact hgen allEvents ([], []) (wfMap_nil _)

/-- In a well-formed partner-level map whose leaves hold only events carrying the
keys of their path, the events of a partner and depositor met while visiting the
map are those of their leaf, whatever the visiting order. -/
theorem flatten2_filter (ρ : MapRange)
    (m : GoMap Address (GoMap Address (List TEventReferredBalanceIncreased)))
    (partner depositor : Address)
    (hwf : WFMap (WFMap (fun _ : List TEventReferredBalanceIncreased => True)) m)
    (hkey : ∀ p d leaf, get2 m p d = some leaf →
      ∀ e ∈ leaf, e.PartnerID.ToAddress = p ∧ e.Depositer.ToAddress = d) :
    (flatten2 ρ m).filter (fun e => decide (e.PartnerID.ToAddress = partner ∧
        e.Depositer.ToAddress = depositor)) = (get2 m partner depositor).getD [] := by
  have hfun : (fun e : TEventReferredBalanceIncreased =>
        decide (e.PartnerID.ToAddress = partner ∧ e.Depositer.ToAddress = depositor)) =
      (fun e => decide (e.Depositer.ToAddress = depositor) &&
        decide (e.PartnerID.ToAddress = partner)) := by
    funext e
    by_cases h1 : e.PartnerID.ToAddress = partner <;>
      by_cases h2 : e.Depositer.ToAddress = depositor <;> simp [h1, h2]
  have hndo : NodupKeys (ρ.order m) := by
    unfold NodupKeys
    exact ((ρ.perm m).map Prod.fst).nodup_iff.mpr hwf.1
  have hinner : ∀ outer ∈ ρ.order m, mapGet m outer.1 = some outer.2 := by
    intro outer ho
    exact mapGet_of_mem m outer.1 outer.2 hwf.1 ((ρ.perm m).subset ho)
  have hleaf : ∀ (p : Address) (inner : GoMap Address (List TEventReferredBalanceIncreased)),
      mapGet m p = some inner → ∀ de ∈ ρ.order inner, get2 m p de.1 = some de.2 := by
    intro p inner hp de hde
    unfold get2
    rw [hp]
    exact mapGet_of_mem inner de.1 de.2 (hwf.2 p inner hp).1 ((ρ.perm inner).subset hde)
  rw [hfun, ← List.filter_filter]
  unfold flatten2
  rw [filter_flatMap_key (ρ.order m)
    (fun inner : GoMap Address (List TEventReferredBalanceIncreased) =>
      (ρ.order inner).flatMap (fun de => de.2))
    (fun e => e.PartnerID.ToAddress) partner hndo]
  · rw [← mapGet_perm m (ρ.order m) partner (ρ.perm m).symm hwf.1]
    unfold get2
    cases hp : mapGet m partner with
    | none => simp
    | some inner =>
      simp only [Option.map_some', Option.getD_some, Option.some_bind]
      have hndi : NodupKeys (ρ.order inner) := by
        unfold NodupKeys
        exact ((ρ.perm inner).map Prod.fst).nodup_iff.mpr (hwf.2 partner inner hp).1
      have h2 := filter_flatMap_key (ρ.order inner)
        (fun leaf : List TEventReferredBalanceIncreased => leaf)
        (fun e => e.Depositer.ToAddress) depositor hndi
        (fun de hde e he => (hkey partner de.1 de.2 (hleaf partner inner hp de hde) e he).2)
      rw [h2, ← mapGet_perm inner (ρ.order inner) depositor (ρ.perm inner).symm
        (hwf.2 partner inner hp).1]
      simp
  · intro outer ho e he
    rw [List.mem_flatMap] at he
    obtain ⟨de, hde, hede⟩ := he
    exact (hkey outer.1 de.1 de.2 (hleaf outer.1 outer.2 (hinner outer ho) de hde) e hede).1

/-! ## Lemmas on the filter -/

theorem eventLess_asymm (a b : TEventReferredBalanceIncreased) (h : eventLess a b = true) :
    eventLess b a = false := by
  simp only [eventLess, decide_eq_true_eq, decide_eq_false_iff_not] at *
  omega

theorem eventLess_negTrans (a b c : TEventReferredBalanceIncreased)
    (h1 : eventLess a b = false) (h2 : eventLess b c = false) : eventLess a c = false := by
  simp only [eventLess, decide_eq_false_iff_not] at *
  omega

theorem transferLess_asymm (a b : TRefereeTransferEvent) (h : transferLess a b = true) :
    transferLess b a = false := by
  simp only [transferLess, decide_eq_true_eq, decide_eq_false_iff_not] at *
  omega

theorem transferLess_negTrans (a b c : TRefereeTransferEvent)
    (h1 : transferLess a b = false) (h2 : transferLess b c = false) :
    transferLess a c = false := by
  simp only [transferLess, decide_eq_false_iff_not] at *
  omega

theorem filterStep_eq (upperBlockLimit : Nat)
    (events : GoMap Address (GoMap Address (List TEventReferredBalanceIncreased)))
    (event : TEventReferredBalanceIncreased) :
    filterStep upperBlockLimit events event =
      if event.BlockNumber < upperBlockLimit then
        push2 events event.PartnerID.ToAddress event.Depositer.ToAddress event
      else events := rfl

theorem filterCollect_eq (ρ : MapRange) (allEvents : RelationTree) (vaultAddress : Address)
    (upperBlockLimit : Nat) :
    filterCollect ρ allEvents vaultAddress upperBlockLimit =
      (flatten2 ρ ((mapGet allEvents vaultAddress).getD [])).foldl
        (filterStep upperBlockLimit) [] := by
  unfold filterCollect flatten2
  rw [foldl_flatMap_eq]
  congr 1
  funext events eventsPartnerLevel
  rw [foldl_flatMap_eq]

theorem leavesOf_filterFold (upperBlockLimit : Nat)
    (l : List TEventReferredBalanceIncreased)
    (events : GoMap Address (GoMap Address (List TEventReferredBalanceIncreased)))
    (h : LeavesOf events (fun leaf => ∀ e ∈ leaf, e.BlockNumber < upperBlockLimit)) :
    LeavesOf (l.foldl (filterStep upperBlockLimit) events)
      (fun leaf => ∀ e ∈ leaf, e.BlockNumber < upperBlockLimit) := by
  induction l generalizing events with
  | nil => exact h
  | cons x l ih =>
    rw [List.foldl_cons]
    apply ih
    rw [filterStep_eq]
    split_ifs with hx
    · refine leavesOf_push2 events _ _ _ _ x ?_ (fun l hl => hl) ?_ h
      · intro e he; simp at he
      · intro leaf hleaf e he
        rcases List.mem_append.mp he with he | he
        · exact hleaf e he
        · rw [List.mem_singleton] at he
          subst he
          exact hx
    · exact h

theorem get2_sortLeaves (σ : SliceSorter)
    (events : GoMap Address (GoMap Address (List TEventReferredBalanceIncreased)))
    (partner depositor : Address) :
    get2 (sortLeaves σ events) partner depositor =
      (get2 events partner depositor).map (σ.sort eventLess) := by
  unfold get2 sortLeaves
  rw [mapGet_mapValues (fun inner : GoMap Address (List TEventReferredBalanceIncreased) =>
    inner.map (fun de => (de.1, σ.sort eventLess de.2)))]
  cases mapGet events partner with
  | none => rfl
  | some inner =>
    simp only [Option.map_some', Option.some_bind]
    exact mapGet_mapValues (σ.sort eventLess) inner depositor

theorem leavesOf_bucketFold (rest pre : List TRefereeTransferEvent)
    (m : GoMap Address (GoMap Address (List TRefereeTransferEvent)))
    (h : LeavesOf m (fun leaf => leaf.Sublist pre)) :
    LeavesOf (rest.foldl bucketStep m) (fun leaf => leaf.Sublist (pre ++ rest)) := by
  induction rest generalizing pre m with
  | nil => simpa using h
  | cons x rest ih =>
    rw [List.foldl_cons]
    have hx : LeavesOf (bucketStep m x) (fun leaf => leaf.Sublist (pre ++ [x])) :=
      leavesOf_push2 m (fun leaf => leaf.Sublist pre) (fun leaf => leaf.Sublist (pre ++ [x]))
        x.Token x.Referee x (List.nil_sublist pre)
        (fun l hl => hl.trans (List.sublist_append_left pre [x]))
        (fun l hl => List.Sublist.append hl (List.Sublist.refl [x])) h
    have := ih (pre ++ [x]) (bucketStep m x) hx
    simpa using this

theorem get2_filterFold (upperBlockLimit : Nat) (partner depositor : Address)
    (l : List TEventReferredBalanceIncreased)
    (events : GoMap Address (GoMap Address (List TEventReferredBalanceIncreased))) :
    get2 (l.foldl (filterStep upperBlockLimit) events) partner depositor =
      appendTo (get2 events partner depositor)
        (l.filter (fun e => decide (e.BlockNumber < upperBlockLimit) &&
          decide (e.PartnerID.ToAddress = partner ∧ e.Depositer.ToAddress = depositor))) := by
  apply fold_leaf (filterStep upperBlockLimit) (fun m => get2 m partner depositor)
  intro m e
  rw [filterStep_eq]
  by_cases hb : e.BlockNumber < upperBlockLimit
  · rw [if_pos hb, get2_push2]
    by_cases hk : partner = e.PartnerID.ToAddress ∧ depositor = e.Depositer.ToAddress
    · obtain ⟨h1, h2⟩ := hk
      subst h1; subst h2
      simp [hb]
    · have hk' : ¬ (e.PartnerID.ToAddress = partner ∧ e.Depositer.ToAddress = depositor) :=
        fun h => hk ⟨h.1.symm, h.2.symm⟩
      simp [hb, hk, hk']
  · rw [if_neg hb]
    simp [hb]

theorem getD_map_appendTo {E : Type} (f : List E → List E) (hf : ∀ l, (f l).Perm l)
    (l : List E) : (((appendTo none l).map f).getD []).Perm l := by
  cases l with
  | nil => simp [appendTo]
  | cons x t => simpa [appendTo] using hf (x :: t)

theorem get2_vaultLevel (tree : RelationTree) (vault partner depositor : Address) :
    get2 ((mapGet tree vault).getD []) partner depositor =
      get3 tree vault partner depositor := by
  unfold get3 get2
  cases mapGet tree vault <;> simp [mapGet]

theorem builderLoop_leaf_keys (allEvents : List TEventReferredBalanceIncreased)
    (vault partner depositor : Address) (leaf : List TEventReferredBalanceIncreased)
    (h : get3 (builderLoop allEvents).1 vault partner depositor = some leaf) :
    ∀ e ∈ leaf, e.Vault.ToAddress = vault ∧ e.PartnerID.ToAddress = partner ∧
      e.Depositer.ToAddress = depositor := by
  intro e he
  have hget := congrArg (fun o => o.getD []) (get3_builderLoop allEvents vault partner depositor)
  simp only [appendTo_none_getD, h, Option.getD_some] at hget
  rw [hget, List.mem_filter] at he
  simpa [eventAt] using he.2

/-- A sorted rearrangement of two items the second of which may not come first. -/
theorem sorted_pair {E : Type} (r : E → E → Prop) (a b : E) (l : List E)
    (hp : l.Perm [a, b]) (hs : l.Pairwise r) (hba : ¬ r b a) : l = [a, b] := by
  have hlen := hp.length_eq
  match l, hp, hs, hlen with
  | [x, y], hp, hs, _ =>
    have hx : x ∈ [a, b] := hp.subset (List.mem_cons_self _ _)
    simp only [List.mem_cons, List.mem_singleton, List.not_mem_nil, or_false] at hx
    rcases hx with hx | hx
    · subst hx
      have := List.perm_singleton.mp ((List.perm_cons x).mp hp)
      simpa using this
    · subst hx
      have h2 : [x, y].Perm [x, a] := hp.trans (List.Perm.swap x a [])
      have h3 := List.perm_singleton.mp ((List.perm_cons x).mp h2)
      simp only [List.cons.injEq, and_true] at h3
      subst h3
      simp only [List.pairwise_cons, List.mem_singleton, forall_eq] at hs
      exact absurd hs.1 hba

/-! ## The filter returns the events below the limit, each leaf sorted -/

/-- C1: every event of every leaf list of the filter result has a block number
strictly below the upper limit, for every tree, vault, limit, visiting order and
sorter; and with the limit `0` the result is the empty map for every vault. -/
theorem filter_events_below_limit (σ : SliceSorter) (ρ : MapRange) (allEvents : RelationTree)
    (vaultAddress : Address) (upperBlockLimit : Nat) :
    (∀ eventsPartnerLevel ∈
        FilterReferralBalanceIncreaseEventsForVault σ ρ allEvents vaultAddress upperBlockLimit,
      ∀ eventDepositorLevel ∈ eventsPartnerLevel.2,
      ∀ event ∈ eventDepositorLevel.2, event.BlockNumber < upperBlockLimit) ∧
    (∀ vault, FilterReferralBalanceIncreaseEventsForVault σ ρ allEvents vault 0 = []) := by
  constructor
  · intro pe hpe de hde e he
    unfold FilterReferralBalanceIncreaseEventsForVault sortLeaves at hpe
    rw [List.mem_map] at hpe
    obtain ⟨pe0, hpe0, rfl⟩ := hpe
    simp only [List.mem_map] at hde
    obtain ⟨de0, hde0, rfl⟩ := hde
    have hfold := leavesOf_filterFold upperBlockLimit
      (flatten2 ρ ((mapGet allEvents vaultAddress).getD [])) []
      (fun outer ho => by simp at ho)
    rw [← filterCollect_eq] at hfold
    exact hfold pe0 hpe0 de0 hde0 e ((σ.perm eventLess de0.2).subset he)
  · intro vault
    have hstep : ∀ l : List TEventReferredBalanceIncreased,
        ∀ events, l.foldl (filterStep 0) events = events := by
      intro l
      induction l with
      | nil => intro events; rfl
      | cons x l ih =>
        intro events
        rw [List.foldl_cons, filterStep_eq, if_neg (Nat.not_lt_zero _)]
        exact ih events
    unfold FilterReferralBalanceIncreaseEventsForVault
    rw [filterCollect_eq, hstep]
    rfl

/-- C2: every leaf list `result[partner][depositor]` of the filter result is sorted
non-decreasing by block number, whatever the order of the events in the input
tree, the visiting order of the maps and the sorter. -/
theorem filter_leaves_sorted (σ : SliceSorter) (ρ : MapRange) (allEvents : RelationTree)
    (vaultAddress : Address) (upperBlockLimit : Nat) :
    (∀ eventsPartnerLevel ∈
        FilterReferralBalanceIncreaseEventsForVault σ ρ allEvents vaultAddress upperBlockLimit,
      ∀ eventDepositorLevel ∈ eventsPartnerLevel.2,
        eventDepositorLevel.2.Pairwise (fun a b => a.BlockNumber ≤ b.BlockNumber)) ∧
    (∀ partner depositor leaf,
      get2 (FilterReferralBalanceIncreaseEventsForVault σ ρ allEvents vaultAddress
        upperBlockLimit) partner depositor = some leaf →
      leaf.Pairwise (fun a b => a.BlockNumber ≤ b.BlockNumber)) := by
  have hsorted : ∀ l : List TEventReferredBalanceIncreased,
      (σ.sort eventLess l).Pairwise (fun a b => a.BlockNumber ≤ b.BlockNumber) := by
    intro l
    refine (σ.sorted eventLess l eventLess_asymm eventLess_negTrans).imp ?_
    intro a b hab
    simp only [eventLess, decide_eq_false_iff_not] at hab
    omega
  have hmem : ∀ eventsPartnerLevel ∈
        FilterReferralBalanceIncreaseEventsForVault σ ρ allEvents vaultAddress upperBlockLimit,
      ∀ eventDepositorLevel ∈ eventsPartnerLevel.2,
        eventDepositorLevel.2.Pairwise (fun a b => a.BlockNumber ≤ b.BlockNumber) := by
    intro pe hpe de hde
    unfold FilterReferralBalanceIncreaseEventsForVault sortLeaves at hpe
    rw [List.mem_map] at hpe
    obtain ⟨pe0, _, rfl⟩ := hpe
    simp only [List.mem_map] at hde
    obtain ⟨de0, _, rfl⟩ := hde
    exact hsorted de0.2
  refine ⟨hmem, ?_⟩
  intro partner depositor leaf hleaf
  obtain ⟨inner, h1, h2⟩ := mem_of_get2 _ partner depositor leaf hleaf
  exact hmem (partner, inner) h1 (depositor, leaf) h2

/-! ## The builder loop -/

/-- C3: after the builder loop, the leaf `tree[vault][partner][depositor]` is exactly
the subsequence of the supplied events whose vault, partner and depositor are that
triple, in the order supplied; the path is absent exactly when no supplied event
has the triple; hence every leaf holds only events that match its own keys. -/
theorem builder_leaf_exact (allEvents : List TEventReferredBalanceIncreased)
    (vault partner depositor : Address) :
    (get3 (builderLoop allEvents).1 vault partner depositor).getD [] =
        allEvents.filter (fun event => decide (event.Vault.ToAddress = vault ∧
          event.PartnerID.ToAddress = partner ∧ event.Depositer.ToAddress = depositor)) ∧
    (get3 (builderLoop allEvents).1 vault partner depositor = none ↔
        ∀ event ∈ allEvents, ¬ (event.Vault.ToAddress = vault ∧
          event.PartnerID.ToAddress = partner ∧ event.Depositer.ToAddress = depositor)) ∧
    (∀ leaf, get3 (builderLoop allEvents).1 vault partner depositor = some leaf →
        ∀ event ∈ leaf, event.Vault.ToAddress = vault ∧
          event.PartnerID.ToAddress = partner ∧ event.Depositer.ToAddress = depositor) := by
  have hget := get3_builderLoop allEvents vault partner depositor
  have hfil : allEvents.filter (eventAt vault partner depositor) =
      allEvents.filter (fun event => decide (event.Vault.ToAddress = vault ∧
          event.PartnerID.ToAddress = partner ∧ event.Depositer.ToAddress = depositor)) := rfl
  rw [hfil] at hget
  refine ⟨?_, ?_, ?_⟩
  · rw [hget, appendTo_none_getD]
  · rw [hget]
    cases hl : allEvents.filter (fun event => decide (event.Vault.ToAddress = vault ∧
          event.PartnerID.ToAddress = partner ∧ event.Depositer.ToAddress = depositor)) with
    | nil =>
      simp only [appendTo, true_iff]
      intro event he hm
      have : event ∈ allEvents.filter (fun event => decide (event.Vault.ToAddress = vault ∧
          event.PartnerID.ToAddress = partner ∧ event.Depositer.ToAddress = depositor)) :=
        List.mem_filter.mpr ⟨he, by simpa using hm⟩
      rw [hl] at this
      simp at this
    | cons x l =>
      simp only [appendTo, false_iff, reduceCtorEq]
      intro hall
      have hx : x ∈ allEvents.filter (fun event => decide (event.Vault.ToAddress = vault ∧
          event.PartnerID.ToAddress = partner ∧ event.Depositer.ToAddress = depositor)) := by
        rw [hl]; exact List.mem_cons_self _ _
      rw [List.mem_filter] at hx
      exact hall x hx.1 (by simpa using hx.2)
  · intro leaf hleaf event he
    have h1 : leaf = allEvents.filter (fun event => decide (event.Vault.ToAddress = vault ∧
          event.PartnerID.ToAddress = partner ∧ event.Depositer.ToAddress = depositor)) := by
      have := congrArg (fun o => o.getD []) hget
      simp only [appendTo_none_getD] at this
      rw [hleaf] at this
      simpa using this
    rw [h1, List.mem_filter] at he
    simpa using he.2

/-! ## The transfer index -/

/-- C5: for every merged collection of transfer events, in any arrival order, every
list `TransferIndex[token][referee]` of the sort-and-bucket step is sorted
non-decreasing by block number. -/
theorem transferIndex_sorted (σ : SliceSorter) (transfersEvents : List TRefereeTransferEvent) :
    (∀ tokenLevel ∈ sortAndBucket σ transfersEvents, ∀ refereeLevel ∈ tokenLevel.2,
        refereeLevel.2.Pairwise (fun a b => a.BlockNumber ≤ b.BlockNumber)) ∧
    (∀ token referee leaf, get2 (sortAndBucket σ transfersEvents) token referee = some leaf →
        leaf.Pairwise (fun a b => a.BlockNumber ≤ b.BlockNumber)) := by
  have hsorted : (σ.sort transferLess transfersEvents).Pairwise
      (fun a b => a.BlockNumber ≤ b.BlockNumber) := by
    refine (σ.sorted transferLess transfersEvents transferLess_asymm
      transferLess_negTrans).imp ?_
    intro a b hab
    simp only [transferLess, decide_eq_false_iff_not] at hab
    omega
  have hmem : ∀ tokenLevel ∈ sortAndBucket σ transfersEvents, ∀ refereeLevel ∈ tokenLevel.2,
      refereeLevel.2.Pairwise (fun a b => a.BlockNumber ≤ b.BlockNumber) := by
    intro te hte re hre
    have hfold := leavesOf_bucketFold (σ.sort transferLess transfersEvents) [] []
      (fun outer ho => by simp at ho)
    rw [List.nil_append] at hfold
    exact hsorted.sublist (hfold te hte re hre)
  refine ⟨hmem, ?_⟩
  intro token referee leaf hleaf
  obtain ⟨inner, h1, h2⟩ := mem_of_get2 _ token referee leaf hleaf
  exact hmem (token, inner) h1 (referee, leaf) h2

theorem get2_sortAndBucket (σ : SliceSorter) (transfersEvents : List TRefereeTransferEvent)
    (token referee : Address) :
    get2 (sortAndBucket σ transfersEvents) token referee =
      appendTo none ((σ.sort transferLess transfersEvents).filter (transferAt token referee)) := by
  unfold sortAndBucket
  have h := fold_leaf bucketStep (fun m => get2 m token referee) (transferAt token referee)
    (fun m x => by
      show get2 (push2 m x.Token x.Referee x) token referee = _
      rw [get2_push2]
      by_cases hk : token = x.Token ∧ referee = x.Referee
      · obtain ⟨h1, h2⟩ := hk
        subst h1; subst h2
        simp [transferAt]
      · have hk' : ¬ (x.Token = token ∧ x.Referee = referee) :=
          fun h => hk ⟨h.1.symm, h.2.symm⟩
        simp [transferAt, hk, hk'])
    (σ.sort transferLess transfersEvents) []
  simpa [get2, mapGet] using h

/-! ## Building the tree, then filtering it -/

/-- C4: filtering the tree built from a sequence of events yields at
`[partner][depositor]` a rearrangement (with multiplicity) of exactly the supplied
events of that vault, partner and depositor whose block number is below the limit.
Scenario: the events at blocks 100 and 150 of one triple give one leaf of length 2,
and filtering with the limit 150 returns only the event of block 100. -/
theorem build_then_filter (σ : SliceSorter) (ρ : MapRange)
    (allEvents : List TEventReferredBalanceIncreased)
    (vault partner depositor : Address) (upperBlockLimit : Nat) :
    ((get2 (FilterReferralBalanceIncreaseEventsForVault σ ρ (builderLoop allEvents).1 vault
        upperBlockLimit) partner depositor).getD []).Perm
      (allEvents.filter (fun e => decide (e.Vault.ToAddress = vault ∧
        e.PartnerID.ToAddress = partner ∧ e.Depositer.ToAddress = depositor ∧
        e.BlockNumber < upperBlockLimit))) ∧
    (builderLoop [sampleEvent 100, sampleEvent 150]).1 =
      [(1, [(2, [(3, [sampleEvent 100, sampleEvent 150])])])] ∧
    FilterReferralBalanceIncreaseEventsForVault σ ρ
      (builderLoop [sampleEvent 100, sampleEvent 150]).1 1 150 =
      [(2, [(3, [sampleEvent 100])])] := by
  refine ⟨?_, rfl, ?_⟩
  · have hwf := wfMap_getD _ (builderLoop allEvents).1 vault []
      (wf_builderLoop allEvents) (wfMap_nil _)
    have hkey : ∀ p d leaf, get2 ((mapGet (builderLoop allEvents).1 vault).getD []) p d =
        some leaf → ∀ e ∈ leaf, e.PartnerID.ToAddress = p ∧ e.Depositer.ToAddress = d := by
      intro p d leaf hl e he
      rw [get2_vaultLevel] at hl
      exact (builderLoop_leaf_keys allEvents vault p d leaf hl e he).2
    have hflat := flatten2_filter ρ _ partner depositor hwf hkey
    rw [get2_vaultLevel, get3_builderLoop, appendTo_none_getD] at hflat
    unfold FilterReferralBalanceIncreaseEventsForVault
    rw [get2_sortLeaves, filterCollect_eq, get2_filterFold]
    have hnone : get2 ([] : GoMap Address (GoMap Address
        (List TEventReferredBalanceIncreased))) partner depositor = none := rfl
    rw [hnone]
    refine (getD_map_appendTo (σ.sort eventLess) (σ.perm eventLess) _).trans ?_
    rw [← List.filter_filter, hflat, List.filter_filter]
    refine List.Perm.of_eq (List.filter_congr ?_)
    intro e _
    by_cases h1 : e.Vault.ToAddress = vault <;>
      by_cases h2 : e.PartnerID.ToAddress = partner <;>
      by_cases h3 : e.Depositer.ToAddress = depositor <;>
      by_cases h4 : e.BlockNumber < upperBlockLimit <;>
      simp [eventAt, h1, h2, h3, h4]
  · have h1 : ∀ {α : Type} (a : α), ρ.order [a] = [a] :=
      fun a => List.perm_singleton.mp (ρ.perm [a])
    have h2 : σ.sort eventLess [sampleEvent 100] = [sampleEvent 100] :=
      List.perm_singleton.mp (σ.perm eventLess [sampleEvent 100])
    have hT : (builderLoop [sampleEvent 100, sampleEvent 150]).1 =
        [(1, [(2, [(3, [sampleEvent 100, sampleEvent 150])])])] := rfl
    have hc : filterCollect ρ [(1, [(2, [(3, [sampleEvent 100, sampleEvent 150])])])] 1 150 =
        [(2, [(3, [sampleEvent 100])])] := by
      unfold filterCollect
      have hg : (mapGet ([(1, [(2, [(3, [sampleEvent 100, sampleEvent 150])])])] : RelationTree)
          1).getD [] = [(2, [(3, [sampleEvent 100, sampleEvent 150])])] := by decide
      rw [hg, h1]
      simp only [List.foldl_cons, List.foldl_nil, h1]
      decide
    unfold FilterReferralBalanceIncreaseEventsForVault
    rw [hT, hc]
    simp only [sortLeaves, List.map_cons, List.map_nil, h2]

/-! ## The transfer index is a partition of the merged collection -/

/-- C6: for every merged collection of transfer events, `TransferIndex[token][referee]`
is a rearrangement (with multiplicity) of exactly the merged events of that token
and referee, the referee being the sender for a log of the outbound query and the
receiver for a log of the inbound query.  Scenario: an outbound transfer at block 120
and an inbound one at block 130 give `[block 120, block 130]` in that order,
whichever arrives first. -/
theorem transferIndex_partitions (σ : SliceSorter) (transfersEvents : List TRefereeTransferEvent)
    (token referee : Address) (log : ERC20Transfer) :
    ((get2 (sortAndBucket σ transfersEvents) token referee).getD []).Perm
      (transfersEvents.filter (fun transfer =>
        decide (transfer.Token = token ∧ transfer.Referee = referee))) ∧
    ((outboundEvent log).Referee = log.From ∧ (outboundEvent log).Token = log.Raw.Address) ∧
    ((inboundEvent log).Referee = log.To ∧ (inboundEvent log).Token = log.Raw.Address) ∧
    get2 (sortAndBucket σ [outboundEvent sampleOutbound, inboundEvent sampleInbound]) 1 3 =
      some [outboundEvent sampleOutbound, inboundEvent sampleInbound] ∧
    get2 (sortAndBucket σ [inboundEvent sampleInbound, outboundEvent sampleOutbound]) 1 3 =
      some [outboundEvent sampleOutbound, inboundEvent sampleInbound] := by
  have hsorted : ∀ l, (σ.sort transferLess l).Pairwise
      (fun a b => a.BlockNumber ≤ b.BlockNumber) := by
    intro l
    refine (σ.sorted transferLess l transferLess_asymm transferLess_negTrans).imp ?_
    intro a b hab
    simp only [transferLess, decide_eq_false_iff_not] at hab
    omega
  refine ⟨?_, ⟨rfl, rfl⟩, ⟨rfl, rfl⟩, ?_, ?_⟩
  · rw [get2_sortAndBucket, appendTo_none_getD]
    exact (σ.perm transferLess transfersEvents).filter _
  · have hs := sorted_pair (fun a b : TRefereeTransferEvent => a.BlockNumber ≤ b.BlockNumber)
      (outboundEvent sampleOutbound) (inboundEvent sampleInbound) _
      (σ.perm transferLess _) (hsorted _) (by decide)
    rw [get2_sortAndBucket, hs]
    decide
  · have hs := sorted_pair (fun a b : TRefereeTransferEvent => a.BlockNumber ≤ b.BlockNumber)
      (outboundEvent sampleOutbound) (inboundEvent sampleInbound) _
      ((σ.perm transferLess _).trans (List.Perm.swap _ _ [])) (hsorted _) (by decide)
    rw [get2_sortAndBucket, hs]
    decide

/-! ## Lemmas on the block-time store -/

theorem mapGet_StoreBlockTime (dbType : DBType) (getUUID : String → String)
    (chainID blockNumber blockTime : Nat) (s : StoreState) (c : Nat) :
    mapGet (StoreBlockTime dbType getUUID chainID blockNumber blockTime s).1.blockTimeSyncMap c =
      if c = chainID then
        some (mapSet ((mapGet s.blockTimeSyncMap chainID).getD []) blockNumber blockTime)
      else mapGet s.blockTimeSyncMap c := by
  cases dbType <;>
  · unfold StoreBlockTime
    cases h : mapGet s.blockTimeSyncMap chainID with
    | none =>
      simp only [Option.isNone_none, if_true, mapGet_mapSet, Option.getD_none]
      by_cases hc : c = chainID
      · simp [hc]
      · simp [hc]
    | some inner =>
      simp only [Option.isNone_some, Bool.false_eq_true, if_false, mapGet_mapSet,
        Option.getD_some, h]

theorem get2_StoreBlockTime (dbType : DBType) (getUUID : String → String)
    (chainID blockNumber blockTime : Nat) (s : StoreState) (b : Nat) :
    get2 (StoreBlockTime dbType getUUID chainID blockNumber blockTime s).1.blockTimeSyncMap
        chainID b =
      if b = blockNumber then some blockTime else get2 s.blockTimeSyncMap chainID b := by
  unfold get2
  rw [mapGet_StoreBlockTime]
  simp only [if_true, Option.some_bind, mapGet_mapSet]
  by_cases hb : b = blockNumber
  · simp [hb]
  · simp only [hb, if_false]
    cases mapGet s.blockTimeSyncMap chainID <;> simp [mapGet]

theorem backend_StoreBlockTime (dbType : DBType) (getUUID : String → String)
    (chainID blockNumber blockTime : Nat) (s : StoreState) :
    (StoreBlockTime dbType getUUID chainID blockNumber blockTime s).1.badgerBlockTime =
        s.badgerBlockTime ∧
      (StoreBlockTime dbType getUUID chainID blockNumber blockTime s).1.dbBlockTimes =
        s.dbBlockTimes := by
  cases dbType <;> exact ⟨rfl, rfl⟩

theorem cache_runWrite (w : BackendWrite) (ok : Bool) (s : StoreState) :
    (runWrite w ok s).blockTimeSyncMap = s.blockTimeSyncMap := by
  cases ok <;> cases w <;> rfl

theorem tableFind_tableSave (rows : List DBBlockTime) (record : DBBlockTime) (uuid : String) :
    tableFind (tableSave rows record) uuid =
      if uuid = record.base.UUID then some record else tableFind rows uuid := by
  induction rows with
  | nil =>
    by_cases h : record.base.UUID = uuid
    · simp [tableSave, tableFind, h]
    · have h' : ¬ uuid = record.base.UUID := fun e => h e.symm
      simp [tableSave, tableFind, h, h']
  | cons row rows ih =>
    by_cases h0 : row.base.UUID = record.base.UUID
    · by_cases h1 : record.base.UUID = uuid
      · simp [tableSave, tableFind, h0, h1]
      · have h1' : ¬ uuid = record.base.UUID := fun e => h1 e.symm
        have h2 : ¬ row.base.UUID = uuid := fun e => h1 (h0 ▸ e)
        simp [tableSave, tableFind, h0, h1, h1', h2]
    · by_cases h1 : row.base.UUID = uuid
      · have h2 : ¬ uuid = record.base.UUID := fun e => h0 (h1.trans e)
        simp [tableSave, tableFind, h0, h1, h2]
      · simp [tableSave, tableFind, h0, h1, ih]

/-! ## Lemmas on the query of a vault -/

theorem refereeFold (data : List TRefereeVaultBlockData) (acc : List Address × Nat) :
    (data.foldl refereeStep acc).1 = acc.1 ++ data.map (fun d => d.Referee) ∧
      (data.foldl refereeStep acc).2 ≤ acc.2 ∧
      (∀ d ∈ data, (data.foldl refereeStep acc).2 ≤ d.Block) ∧
      ((data.foldl refereeStep acc).2 = acc.2 ∨
        ∃ d ∈ data, (data.foldl refereeStep acc).2 = d.Block) := by
  induction data generalizing acc with
  | nil => simp
  | cons x data ih =>
    obtain ⟨h1, h2, h3, h4⟩ := ih (refereeStep acc x)
    rw [List.foldl_cons]
    have hx : (refereeStep acc x).2 ≤ acc.2 ∧ (refereeStep acc x).2 ≤ x.Block ∧
        ((refereeStep acc x).2 = acc.2 ∨ (refereeStep acc x).2 = x.Block) := by
      have hsnd : (refereeStep acc x).2 = if x.Block < acc.2 then x.Block else acc.2 := rfl
      rw [hsnd]
      by_cases hlt : x.Block < acc.2
      · rw [if_pos hlt]; omega
      · rw [if_neg hlt]; omega
    refine ⟨?_, ?_, ?_, ?_⟩
    · rw [h1]; simp [refereeStep]
    · omega
    · intro d hd
      rcases List.mem_cons.mp hd with hd | hd
      · subst hd; omega
      · exact h3 d hd
    · rcases h4 with h4 | ⟨d, hd, h4⟩
      · rcases hx.2.2 with hx' | hx'
        · exact Or.inl (h4.trans hx')
        · exact Or.inr ⟨x, List.mem_cons_self _ _, h4.trans hx'⟩
      · exact Or.inr ⟨d, List.mem_cons_of_mem _ hd, h4⟩

theorem mapGet_observations (allEvents : List TEventReferredBalanceIncreased)
    (acc : RelationTree × ObservationData) (vault : Address) :
    (mapGet (allEvents.foldl builderStep acc).2 vault).getD [] =
      (mapGet acc.2 vault).getD [] ++
        (allEvents.filter (fun e => decide (e.Vault.ToAddress = vault))).map observationOf := by
  induction allEvents generalizing acc with
  | nil => simp
  | cons x l ih =>
    rw [List.foldl_cons, ih]
    have hstep : (mapGet (builderStep acc x).2 vault).getD [] =
        if x.Vault.ToAddress = vault then (mapGet acc.2 vault).getD [] ++ [observationOf x]
        else (mapGet acc.2 vault).getD [] := by
      unfold builderStep
      simp only [mapGet_mapSet]
      by_cases hv : vault = x.Vault.ToAddress
      · subst hv
        simp only [if_true]
        cases hg : mapGet acc.2 x.Vault.ToAddress with
        | none => simp [mapGet_mapSet, observationOf]
        | some obs => simp [hg, observationOf]
      · have hv' : ¬ x.Vault.ToAddress = vault := fun e => hv e.symm
        simp only [hv, hv', if_false]
        cases hg : mapGet acc.2 x.Vault.ToAddress with
        | none => simp [mapGet_mapSet, hv]
        | some obs => simp
    rw [hstep]
    by_cases hv : x.Vault.ToAddress = vault
    · simp [hv]
    · simp [hv]

/-! ## `StoreBlockTime`: the in-memory write -/

/-- C7: for every chain (with or without an in-memory map so far), block number and
block time, for either backend and any outcome of the backend write, right after
`StoreBlockTime` returns the map of the chain exists and reading the block number
gives the block time; the other block numbers of the chain and the maps of the
other chains read as before; the backend write leaves the in-memory maps alone. -/
theorem storeBlockTime_cache (dbType : DBType) (getUUID : String → String)
    (chainID blockNumber blockTime : Nat) (s : StoreState) (ok : Bool) :
    (mapGet (StoreBlockTime dbType getUUID chainID blockNumber blockTime s).1.blockTimeSyncMap
        chainID).isSome = true ∧
    get2 (StoreBlockTime dbType getUUID chainID blockNumber blockTime s).1.blockTimeSyncMap
        chainID blockNumber = some blockTime ∧
    (∀ otherBlock, otherBlock ≠ blockNumber →
      get2 (StoreBlockTime dbType getUUID chainID blockNumber blockTime s).1.blockTimeSyncMap
        chainID otherBlock = get2 s.blockTimeSyncMap chainID otherBlock) ∧
    (∀ otherChain, otherChain ≠ chainID →
      mapGet (StoreBlockTime dbType getUUID chainID blockNumber blockTime s).1.blockTimeSyncMap
        otherChain = mapGet s.blockTimeSyncMap otherChain) ∧
    (runWrite (StoreBlockTime dbType getUUID chainID blockNumber blockTime s).2 ok
        (StoreBlockTime dbType getUUID chainID blockNumber blockTime s).1).blockTimeSyncMap =
      (StoreBlockTime dbType getUUID chainID blockNumber blockTime s).1.blockTimeSyncMap := by
  refine ⟨?_, ?_, ?_, ?_, cache_runWrite _ _ _⟩
  · rw [mapGet_StoreBlockTime]; simp
  · rw [get2_StoreBlockTime]; simp
  · intro otherBlock h
    rw [get2_StoreBlockTime, if_neg h]
  · intro otherChain h
    rw [mapGet_StoreBlockTime, if_neg h]

/-! ## `StoreBlockTime`: two writes for one block -/

/-- C8: the relational branch computes the record ID from the chain, the block and
the block time, so whenever the ID function tells the two ID strings of `t1` and
`t2` apart, storing `t1` and then `t2` for one chain and block (writes in call
order, both succeeding, on an empty store) leaves two block-time records of that
chain and block, the earlier one first: the later write does not overwrite. -/
theorem storeTwice_relational_duplicate (getUUID : String → String)
    (chainID blockNumber t1 t2 : Nat)
    (hid : getUUID (formatUint chainID ++ formatUint blockNumber ++ formatUint t1) ≠
      getUUID (formatUint chainID ++ formatUint blockNumber ++ formatUint t2)) :
    recordsOf (storeTwice .DBMysql getUUID chainID blockNumber t1 t2 emptyStore)
        chainID blockNumber =
      [blockTimeRecord getUUID chainID blockNumber t1,
        blockTimeRecord getUUID chainID blockNumber t2] := by
  have hrows : (storeTwice .DBMysql getUUID chainID blockNumber t1 t2 emptyStore).dbBlockTimes =
      tableSave (tableSave [] (blockTimeRecord getUUID chainID blockNumber t1))
        (blockTimeRecord getUUID chainID blockNumber t2) := rfl
  have hne : ¬ (blockTimeRecord getUUID chainID blockNumber t1).base.UUID =
      (blockTimeRecord getUUID chainID blockNumber t2).base.UUID := hid
  unfold recordsOf
  rw [hrows]
  simp only [tableSave, if_neg hne]
  simp [blockTimeRecord]

theorem storeTwice_relational_duplicate_witness :
    plainUUID (formatUint 1 ++ formatUint 100 ++ formatUint 5) ≠
        plainUUID (formatUint 1 ++ formatUint 100 ++ formatUint 6) ∧
      recordsOf (storeTwice .DBMysql plainUUID 1 100 5 6 emptyStore) 1 100 =
        [blockTimeRecord plainUUID 1 100 5, blockTimeRecord plainUUID 1 100 6] :=
  ⟨by decide, storeTwice_relational_duplicate plainUUID 1 100 5 6 (by decide)⟩

/-- What two calls of `StoreBlockTime` for one chain and block leave behind, from any
store and for any ID function: the cache holds `t2` for either backend; the
key-value backend holds `t2` under the stringified block number and the second
write adds no entry; in the relational backend the row with the record ID of `t2`
is the record of `t2`, and the row with the record ID of `t1` is replaced by it
only when the two IDs coincide. -/
theorem storeTwice_overwrite (getUUID : String → String)
    (chainID blockNumber t1 t2 : Nat) (s : StoreState) :
    (∀ dbType, get2 (storeTwice dbType getUUID chainID blockNumber t1 t2 s).blockTimeSyncMap
        chainID blockNumber = some t2) ∧
    get2 (storeTwice .DBBadger getUUID chainID blockNumber t1 t2 s).badgerBlockTime
        chainID (formatUint blockNumber) = some (formatUint t2) ∧
    ((mapGet (storeTwice .DBBadger getUUID chainID blockNumber t1 t2 s).badgerBlockTime
        chainID).getD []).map Prod.fst =
      ((mapGet (storeOnce .DBBadger getUUID chainID blockNumber t1 s).badgerBlockTime
        chainID).getD []).map Prod.fst ∧
    tableFind (storeTwice .DBMysql getUUID chainID blockNumber t1 t2 s).dbBlockTimes
        (blockTimeRecord getUUID chainID blockNumber t2).base.UUID =
      some (blockTimeRecord getUUID chainID blockNumber t2) ∧
    tableFind (storeTwice .DBMysql getUUID chainID blockNumber t1 t2 s).dbBlockTimes
        (blockTimeRecord getUUID chainID blockNumber t1).base.UUID =
      some (if (blockTimeRecord getUUID chainID blockNumber t1).base.UUID =
          (blockTimeRecord getUUID chainID blockNumber t2).base.UUID then
        blockTimeRecord getUUID chainID blockNumber t2
      else blockTimeRecord getUUID chainID blockNumber t1) := by
  have hbadger : (storeTwice .DBBadger getUUID chainID blockNumber t1 t2 s).badgerBlockTime =
      set2 (set2 s.badgerBlockTime chainID (formatUint blockNumber) (formatUint t1))
        chainID (formatUint blockNumber) (formatUint t2) := rfl
  have honce : (storeOnce .DBBadger getUUID chainID blockNumber t1 s).badgerBlockTime =
      set2 s.badgerBlockTime chainID (formatUint blockNumber) (formatUint t1) := rfl
  have hrows : (storeTwice .DBMysql getUUID chainID blockNumber t1 t2 s).dbBlockTimes =
      tableSave (tableSave s.dbBlockTimes (blockTimeRecord getUUID chainID blockNumber t1))
        (blockTimeRecord getUUID chainID blockNumber t2) := rfl
  refine ⟨?_, ?_, ?_, ?_, ?_⟩
  · intro dbType
    unfold storeTwice
    simp only [cache_runWrite]
    rw [get2_StoreBlockTime]
    simp
  · rw [hbadger, get2_set2]
    simp
  · rw [hbadger, honce]
    unfold set2
    simp only [mapGet_mapSet, if_true, Option.getD_some]
    rw [keys_mapSet, if_pos]
    rw [keys_mapSet]
    split_ifs with hk
    · exact hk
    · simp
  · rw [hrows, tableFind_tableSave]
    simp
  · rw [hrows, tableFind_tableSave, tableFind_tableSave]
    by_cases hu : (blockTimeRecord getUUID chainID blockNumber t1).base.UUID =
        (blockTimeRecord getUUID chainID blockNumber t2).base.UUID
    · simp [hu]
    · simp [hu]

/-! ## The query of a vault: block range and address list -/

/-- C9: for a vault with a non-empty observation list (of `uint64` blocks), the start
of the block range is the minimum of the observation blocks: it is at most every
observation block and equal to one of them; and the range is open-ended. -/
theorem refereeQuery_start_min (refereeBlockData : List TRefereeVaultBlockData)
    (hne : refereeBlockData ≠ [])
    (hbound : ∀ d ∈ refereeBlockData, d.Block ≤ MaxUint64) :
    (∀ d ∈ refereeBlockData, (refereeQuery refereeBlockData).2.Start ≤ d.Block) ∧
    (∃ d ∈ refereeBlockData, (refereeQuery refereeBlockData).2.Start = d.Block) ∧
    (refereeQuery refereeBlockData).2.End = none := by
  obtain ⟨_, _, h3, h4⟩ := refereeFold refereeBlockData ([], MaxUint64)
  refine ⟨h3, ?_, rfl⟩
  rcases h4 with h4 | h4
  · cases hd : refereeBlockData with
    | nil => exact absurd hd hne
    | cons x rest =>
      have hx : x ∈ refereeBlockData := by rw [hd]; exact List.mem_cons_self _ _
      refine ⟨x, List.mem_cons_self _ _, ?_⟩
      have h5 := h3 x hx
      have h6 := hbound x hx
      simp only at h4
      have h7 : (refereeQuery refereeBlockData).2.Start =
          (refereeBlockData.foldl refereeStep ([], MaxUint64)).2 := rfl
      rw [← hd, h7]
      omega
  · exact h4

theorem refereeQuery_start_min_witness :
    ([⟨3, 150⟩, ⟨3, 100⟩] : List TRefereeVaultBlockData) ≠ [] ∧
    ((∀ d ∈ ([⟨3, 150⟩, ⟨3, 100⟩] : List TRefereeVaultBlockData),
        (refereeQuery [⟨3, 150⟩, ⟨3, 100⟩]).2.Start ≤ d.Block) ∧
      (∃ d ∈ ([⟨3, 150⟩, ⟨3, 100⟩] : List TRefereeVaultBlockData),
        (refereeQuery [⟨3, 150⟩, ⟨3, 100⟩]).2.Start = d.Block) ∧
      (refereeQuery [⟨3, 150⟩, ⟨3, 100⟩]).2.End = none) :=
  ⟨by simp, refereeQuery_start_min [⟨3, 150⟩, ⟨3, 100⟩] (by simp)
    (by
      intro d hd
      simp only [List.mem_cons, List.mem_singleton, List.not_mem_nil, or_false] at hd
      rcases hd with hd | hd <;> subst hd <;> simp [MaxUint64])⟩

/-- C10, against the claim: two events of one depositor in one vault give two
observation points, and the address list handed to the queries holds the depositor
twice. -/
theorem referee_addresses_repeat :
    (refereeQuery ((mapGet (builderLoop [sampleEvent 100, sampleEvent 150]).2 1).getD [])).1 =
        [3, 3] ∧
      ¬ (refereeQuery
        ((mapGet (builderLoop [sampleEvent 100, sampleEvent 150]).2 1).getD [])).1.Nodup := by
  have h : (refereeQuery
      ((mapGet (builderLoop [sampleEvent 100, sampleEvent 150]).2 1).getD [])).1 = [3, 3] := rfl
  refine ⟨h, ?_⟩
  rw [h]
  simp

/-- C10, amended: the address list handed to both queries holds one entry per
observation point of the vault, in the order of the observation list, hence one
entry per balance-increase event of the vault: every depositor of the list occurs
in it, as many times as it has observation points (nothing is de-duplicated). -/
theorem referee_addresses_per_observation (refereeBlockData : List TRefereeVaultBlockData)
    (allEvents : List TEventReferredBalanceIncreased) (vault : Address) :
    (refereeQuery refereeBlockData).1 = refereeBlockData.map (fun d => d.Referee) ∧
    (∀ d ∈ refereeBlockData, d.Referee ∈ (refereeQuery refereeBlockData).1) ∧
    (refereeQuery ((mapGet (builderLoop allEvents).2 vault).getD [])).1 =
      (allEvents.filter (fun e => decide (e.Vault.ToAddress = vault))).map
        (fun e => e.Depositer.ToAddress) := by
  have hall : ∀ data : List TRefereeVaultBlockData,
      (refereeQuery data).1 = data.map (fun d => d.Referee) := by
    intro data
    have h := (refereeFold data ([], MaxUint64)).1
    simpa [refereeQuery] using h
  refine ⟨hall _, ?_, ?_⟩
  · intro d hd
    rw [hall]
    exact List.mem_map.mpr ⟨d, hd, rfl⟩
  · rw [hall]
    unfold builderLoop
    rw [mapGet_observations]
    simp [mapGet, observationOf, Function.comp_def]

end YDaemon
